import Mathlib

/-!
# Verification of the searents survey engine

A shallow embedding of the listing/survey data model and the episode
segmentation, equality, validation and cache-regeneration operations of the
searents repository (src/searents/survey.py, src/src/searents/survey.py,
src/src/searents/equity.py, src/src/searents/scraper.py), with theorems
settling the specification's claims about them.

Modelling conventions: `datetime` instants and `timedelta`s are integers
(e.g. seconds); Python floats are rationals; Python's stable `sorted` is an
insertion sort, which computes the same list as any stable sort; a Python
set comprehension iterated in arbitrary order is modelled by `List.dedup`
of the underlying listing order; generators are modelled as the lists they
yield, and a raised exception as `Except.error`.
-/

namespace Searents

open List

/-- Field-for-field model of `RentListing`
(src/src/searents/survey.py, `class RentListing`). -/
structure RentListing where
  price : Rat
  scraper : String
  timestamp : Int
  unit : String
  url : String
deriving DecidableEq

/-- Model of `RentSurvey`: it owns a list of listings
(src/src/searents/survey.py, `RentSurvey.__init__`). -/
structure RentSurvey where
  listings : List RentListing
deriving DecidableEq

/-- One day of `datetime.timedelta`, in seconds. -/
def day : Int := 86400

/-- `datetime.timedelta(weeks=1)`, the default episode threshold, in seconds. -/
def week : Int := 7 * day

/-- Stable insertion of `x` into `l`: `x` goes before the first element `y`
with `le x y`.  Used to model Python's stable `sorted`. -/
def insertSorted (le : α → α → Bool) (x : α) : List α → List α
  | [] => [x]
  | y :: ys => if le x y then x :: y :: ys else y :: insertSorted le x ys

/-- Stable insertion sort; elementwise it computes exactly what Python's
stable `sorted` computes for the comparison `le`. -/
def stableSort (le : α → α → Bool) (l : List α) : List α := l.foldr (insertSorted le) []

/-- The comparison behind `sorted(..., key=lambda listing: listing.timestamp)`. -/
def tsLe (a b : RentListing) : Bool := decide (a.timestamp ≤ b.timestamp)

/-- `sorted(listings, key=lambda listing: listing.timestamp)`. -/
def sortTs (l : List RentListing) : List RentListing := stableSort tsLe l

/-- `RentSurvey.__eq__` (src/src/searents/survey.py): the two listing lists,
each sorted by timestamp, compared elementwise.  (`isinstance(other, RentSurvey)`
always holds in this typed embedding.) -/
def surveyEq (s t : RentSurvey) : Bool := decide (sortTs s.listings = sortTs t.listings)

/-- Code-point comparison of characters, as Python compares strings. -/
def charLt (a b : Char) : Bool := decide (a.toNat < b.toNat)

/-- Lexicographic strict order on code-point sequences (Python `str` `<`). -/
def strLt : List Char → List Char → Bool
  | [], [] => false
  | [], _ :: _ => true
  | _ :: _, [] => false
  | a :: as, b :: bs => if charLt a b then true else if charLt b a then false else strLt as bs

/-- Python string `<=`, the order `sorted` uses on unit names. -/
def strLe (a b : String) : Bool := !(strLt b.data a.data)

/-- The inner loop of `RentSurvey.episodes`: `episode` is the accumulator,
`lastL` the listing most recently appended to it (`episode[-1]`); a gap
strictly over the threshold yields the episode and restarts it. -/
def splitGo (θ : Int) (lastL : RentListing) (episode : List RentListing) :
    List RentListing → List (List RentListing)
  | [] => [episode]
  | l :: rest =>
    if l.timestamp - lastL.timestamp > θ then episode :: splitGo θ l [l] rest
    else splitGo θ l (episode ++ [l]) rest

/-- Episode segmentation of one unit's timestamp-sorted listings:
`episode = [unit_listings[0]]`, then `splitGo` over the rest.  (For an empty
input the Python generator yields nothing; the case is unreachable from
`episodes`, where the unit was drawn from the listings themselves.) -/
def splitEpisodes (θ : Int) : List RentListing → List (List RentListing)
  | [] => []
  | first :: rest => splitGo θ first [first] rest

/-- `{listing.url for listing in self.listings}`: the distinct urls (a Python
set; its arbitrary iteration order is modelled by `dedup`). -/
def surveyUrls (s : RentSurvey) : List String := (s.listings.map (·.url)).dedup

/-- `[listing for listing in self.listings if listing.url == url]`. -/
def urlListings (s : RentSurvey) (url : String) : List RentListing :=
  s.listings.filter (fun l => l.url == url)

/-- `sorted({listing.unit for listing in url_listings})`: the distinct unit
names in sorted order. -/
def unitsOf (ls : List RentListing) : List String :=
  stableSort strLe ((ls.map (·.unit)).dedup)

/-- The `unit_listings` of `RentSurvey.episodes`: one unit's listings of one
url, sorted by timestamp. -/
def unitListings (ls : List RentListing) (unit : String) : List RentListing :=
  sortTs (ls.filter (fun l => l.unit == unit))

/-- `RentSurvey.episodes(threshold)` (src/src/searents/survey.py and, with a
dict-based listing, src/searents/survey.py): for each distinct url, for each
distinct unit in sorted order, split that unit's timestamp-sorted listings
wherever the gap to the previous listing exceeds the threshold. -/
def episodes (s : RentSurvey) (θ : Int) : List (List RentListing) :=
  (surveyUrls s).flatMap fun url =>
    (unitsOf (urlListings s url)).flatMap fun unit =>
      splitEpisodes θ (unitListings (urlListings s url) unit)

/-- `episode[-1].unit` of a (never actually empty) episode. -/
def lastUnit (e : List RentListing) : String := (e.getLast?.map (·.unit)).getD ""

/-- The grouping loop of `RentSurvey.unit_episodes`: on a unit change the
accumulated `(unit, episodes)` pair is yielded and the accumulator restarted. -/
def ueGo (unit : String) (acc : List (List RentListing)) :
    List (List RentListing) → List (String × List (List RentListing))
  | [] => [(unit, acc)]
  | e :: rest =>
    if lastUnit e != unit then (unit, acc) :: ueGo (lastUnit e) [e] rest
    else ueGo unit (acc ++ [e]) rest

/-- `RentSurvey.unit_episodes` (src/src/searents/survey.py): `next` on the
episode generator is attempted first; on `StopIteration` the code raises
`RuntimeError("This should never happen.")`, modelled as `Except.error`.
(In src/searents/survey.py the bare `StopIteration` escaping the generator
likewise surfaces as a `RuntimeError` under PEP 479.) -/
def unit_episodes (s : RentSurvey) (θ : Int) :
    Except String (List (String × List (List RentListing))) :=
  match episodes s θ with
  | [] => .error "This should never happen."
  | e :: rest => .ok (ueGo (lastUnit e) [e] rest)

/-- `unit_episodes[-1][-1][-1][-1].url`: the url of the last listing of the
last episode of a group. -/
def groupLastUrl (g : String × List (List RentListing)) : String :=
  ((g.2.getLast?.getD []).getLast?.map (·.url)).getD ""

/-- The grouping loop of `RentSurvey.url_episodes`: on a url change the
accumulated `(url, unit_episodes)` pair is yielded and the accumulator
restarted. -/
def urlGo (url : String) (acc : List (String × List (List RentListing))) :
    List (String × List (List RentListing)) →
      List (String × List (String × List (List RentListing)))
  | [] => [(url, acc)]
  | g :: rest =>
    if groupLastUrl g != url then (url, acc) :: urlGo (groupLastUrl g) [g] rest
    else urlGo url (acc ++ [g]) rest

/-- `RentSurvey.url_episodes` (src/src/searents/survey.py): the `RuntimeError`
of the underlying `unit_episodes` generator propagates; an empty group list
would hit this method's own `StopIteration` handler (unreachable, since
`ueGo` always yields at least one group). -/
def url_episodes (s : RentSurvey) (θ : Int) :
    Except String (List (String × List (String × List (List RentListing)))) :=
  match unit_episodes s θ with
  | .error msg => .error msg
  | .ok [] => .error "This should never happen."
  | .ok (g :: rest) => .ok (urlGo (groupLastUrl g) [g] rest)

/-- A Python value as stored in the dict-based listings of
src/searents/survey.py: a float, a str, or a datetime. -/
inductive PyVal where
  | float (q : Rat)
  | str (s : String)
  | datetime (t : Int)
deriving DecidableEq

/-- `isinstance(v, float)`. -/
def PyVal.isFloat : PyVal → Bool
  | .float _ => true
  | _ => false

/-- `isinstance(v, str)`. -/
def PyVal.isStr : PyVal → Bool
  | .str _ => true
  | _ => false

/-- `isinstance(v, datetime.datetime)`. -/
def PyVal.isDatetime : PyVal → Bool
  | .datetime _ => true
  | _ => false

/-- A dict-based listing of src/searents/survey.py with the five keys of
`RentSurvey.listing_types` present; each value may be of any Python type. -/
structure DictListing where
  price : PyVal
  scraper : PyVal
  timestamp : PyVal
  unit : PyVal
  url : PyVal
deriving DecidableEq

/-- The per-listing body of `RentSurvey.is_valid`
(src/searents/survey.py): `isinstance(listing[key], type_)` for every entry
of `listing_types` — a type check and nothing more. -/
def listingTypeCheck (l : DictListing) : Bool :=
  l.price.isFloat && l.scraper.isStr && l.timestamp.isDatetime && l.unit.isStr && l.url.isStr

/-- `RentSurvey.is_valid` (src/searents/survey.py, lines 72-77): all
contained listings pass the type check. -/
def is_valid (listings : List DictListing) : Bool := listings.all listingTypeCheck

/-- Modelled from the spec's words, for comparison with `is_valid` (claim C3):
price at least 0 (and a float). -/
def specPriceOk : PyVal → Bool
  | .float q => decide (0 ≤ q)
  | _ => false

/-- Modelled from the spec's words: a non-empty string. -/
def specStrOk : PyVal → Bool
  | .str s => !(s == "")
  | _ => false

/-- Modelled from the spec's words: a valid UTC instant. -/
def specTsOk : PyVal → Bool
  | .datetime _ => true
  | _ => false

/-- Modelled from the spec's words (claim C3): price at least 0, all string
fields non-empty, timestamp a valid UTC instant. -/
def specListingValid (l : DictListing) : Bool :=
  specPriceOk l.price && specStrOk l.scraper && specStrOk l.unit && specStrOk l.url &&
    specTsOk l.timestamp

/-- A cached scrape as `BaseScraper.cached_scrapes` yields it
(src/src/searents/scraper.py): raw text, the timestamp parsed from the file
name, and the file path (`url` is always `None` for cached scrapes). -/
structure Scrape where
  text : String
  timestamp : Int
  path : String
deriving DecidableEq

/-- One unit as the external HTML parser reports it: the joined
`building unit` name and the numeric price.  `EquityParser` itself is an
HTML-grammar collaborator; `EquityScraper.survey` consumes its output. -/
structure ParsedUnit where
  unit : String
  price : Rat
deriving DecidableEq

/-- `EquityScraper.survey(scrape)` (src/src/searents/equity.py) with the HTML
parsing abstracted as the deterministic extractor `extract`: every parsed
unit becomes a listing priced from the parse, tagged with the scraper's
name, the scrape's timestamp and the scraper's url. -/
def scrapeSurvey (extract : String → List ParsedUnit) (name url : String) (s : Scrape) :
    RentSurvey :=
  ⟨(extract s.text).map fun u =>
    { price := u.price, scraper := name, timestamp := s.timestamp, unit := u.unit, url := url }⟩

/-- `EquityScraper.cache_survey` (src/src/searents/equity.py, lines 106-117):
extend the survey with each cached scrape's listings in cache order; a
scrape yielding no listings logs a warning naming its path (second
component) and processing continues. -/
def cache_survey (extract : String → List ParsedUnit) (name url : String) :
    List Scrape → RentSurvey × List String
  | [] => (⟨[]⟩, [])
  | s :: rest =>
    let ls := (scrapeSurvey extract name url s).listings
    let r := cache_survey extract name url rest
    (⟨ls ++ r.1.listings⟩, (if ls.isEmpty then [s.path] else []) ++ r.2)

/-! ## Concrete inputs used by witnesses and counterexamples -/

/-- c1: listing at time `t = 0` (price 1500). -/
def c1A : RentListing := ⟨1500, "s", 0, "n", "u"⟩

/-- c1: listing at `t + 3` days. -/
def c1B : RentListing := ⟨1510, "s", 3 * day, "n", "u"⟩

/-- c1: listing at `t + 10` days. -/
def c1C : RentListing := ⟨1520, "s", 10 * day, "n", "u"⟩

/-- c3: a correctly typed listing whose price is the float `-1`. -/
def c3L : DictListing := ⟨.float (-1), .str "s", .datetime 0, .str "n", .str "u"⟩

/-- c4: a listing at timestamp 0, unit `a`. -/
def c4A : RentListing := ⟨1500, "s", 0, "a", "u"⟩

/-- c4: a listing at the same timestamp 0, unit `b`. -/
def c4B : RentListing := ⟨1500, "s", 0, "b", "u"⟩

/-- c4 witness: a listing at timestamp 0. -/
def c4C : RentListing := ⟨1500, "s", 0, "a", "u"⟩

/-- c4 witness: a listing at timestamp 1. -/
def c4D : RentListing := ⟨1600, "s", 1, "b", "u"⟩

/-- c2 witness: a listing at time 0. -/
def c2A : RentListing := ⟨1500, "s", 0, "n", "u"⟩

/-- c2 witness: a listing exactly one week (the threshold) later. -/
def c2B : RentListing := ⟨1400, "s", 604800, "n", "u"⟩

/-- c9: extractor yielding one unit named after the text, none for empty text. -/
def c9extract : String → List ParsedUnit := fun t => if t == "" then [] else [⟨t, 1⟩]

/-- c9: a normal snapshot. -/
def c9S1 : Scrape := ⟨"a", 0, "p1"⟩

/-- c9: the snapshot whose extraction yields zero listings. -/
def c9S2 : Scrape := ⟨"", 100, "p2"⟩

/-- c9: another normal snapshot, after the empty one. -/
def c9S3 : Scrape := ⟨"b", 200, "p3"⟩

/-- c6: extractor yielding one unit named after the scrape text. -/
def c6extract : String → List ParsedUnit := fun t => [⟨t, 1⟩]

/-- c6: a snapshot at timestamp 0. -/
def c6A : Scrape := ⟨"a", 0, "pa"⟩

/-- c6: a different snapshot at the same timestamp 0. -/
def c6B : Scrape := ⟨"b", 0, "pb"⟩

/-- c6 witness: a snapshot at timestamp 0. -/
def c6C : Scrape := ⟨"a", 0, "pa"⟩

/-- c6 witness: a snapshot at timestamp 100. -/
def c6D : Scrape := ⟨"b", 100, "pb"⟩

/-! ## Theorems -/

theorem insertSorted_perm (le : α → α → Bool) (x : α) (l : List α) :
    insertSorted le x l ~ x :: l := by
  induction l with
  | nil => exact Perm.refl _
  | cons y ys ih =>
    cases h : le x y with
    | true => simp [insertSorted, h]
    | false =>
      simp only [insertSorted, h, Bool.false_eq_true, if_false]
      exact (ih.cons y).trans (Perm.swap x y ys)

theorem stableSort_perm (le : α → α → Bool) (l : List α) : stableSort le l ~ l := by
  induction l with
  | nil => exact Perm.refl _
  | cons y ys ih => exact (insertSorted_perm le y (stableSort le ys)).trans (ih.cons y)

theorem mem_insertSorted (le : α → α → Bool) (x a : α) (l : List α) :
    a ∈ insertSorted le x l ↔ a = x ∨ a ∈ l := by
  rw [(insertSorted_perm le x l).mem_iff, mem_cons]

theorem insertSorted_pairwise_key (key : α → Int) (x : α) (l : List α)
    (h : l.Pairwise fun a b => key a ≤ key b) :
    (insertSorted (fun a b => decide (key a ≤ key b)) x l).Pairwise
      fun a b => key a ≤ key b := by
  induction l with
  | nil => simp [insertSorted]
  | cons y ys ih =>
    rw [pairwise_cons] at h
    cases hxy : decide (key x ≤ key y) with
    | true =>
      have hxy' : key x ≤ key y := of_decide_eq_true hxy
      simp only [insertSorted, hxy, if_true]
      rw [pairwise_cons]
      refine ⟨fun b hb => ?_, pairwise_cons.mpr h⟩
      rcases mem_cons.mp hb with rfl | hb
      · exact hxy'
      · exact le_trans hxy' (h.1 b hb)
    | false =>
      have hyx : key y ≤ key x := by
        have := of_decide_eq_false hxy
        omega
      simp only [insertSorted, hxy, Bool.false_eq_true, if_false]
      rw [pairwise_cons]
      refine ⟨fun b hb => ?_, ih h.2⟩
      rcases (mem_insertSorted _ x b ys).mp hb with rfl | hb
      · exact hyx
      · exact h.1 b hb

theorem stableSort_pairwise_key (key : α → Int) (l : List α) :
    (stableSort (fun a b => decide (key a ≤ key b)) l).Pairwise
      fun a b => key a ≤ key b := by
  induction l with
  | nil => simp [stableSort]
  | cons y ys ih => exact insertSorted_pairwise_key key y _ ih

/-- Uniqueness of the sort: two lists that are permutations of each other and
carry pairwise-distinct integer keys sort to the same list. -/
theorem stableSort_eq_of_perm_of_nodup_key (key : α → Int) (l₁ l₂ : List α)
    (hp : l₁ ~ l₂) (hnd : (l₁.map key).Nodup) :
    stableSort (fun a b => decide (key a ≤ key b)) l₁ =
      stableSort (fun a b => decide (key a ≤ key b)) l₂ := by
  haveI : IsAntisymm α fun a b => key a < key b :=
    ⟨fun a b h1 h2 => absurd (lt_trans h1 h2) (lt_irrefl _)⟩
  have hstrict : ∀ m : List α, (m.map key).Nodup →
      (stableSort (fun a b => decide (key a ≤ key b)) m).Pairwise
        (fun a b => key a < key b) := by
    intro m hm
    have hperm : stableSort (fun a b => decide (key a ≤ key b)) m ~ m :=
      stableSort_perm _ m
    have hnd' : ((stableSort (fun a b => decide (key a ≤ key b)) m).map key).Nodup :=
      ((hperm.map key).nodup_iff).mpr hm
    have hne : (stableSort (fun a b => decide (key a ≤ key b)) m).Pairwise
        fun a b => key a ≠ key b := pairwise_map.mp hnd'
    exact ((stableSort_pairwise_key key m).and hne).imp fun h => lt_of_le_of_ne h.1 h.2
  have hp' : stableSort (fun a b => decide (key a ≤ key b)) l₁ ~
      stableSort (fun a b => decide (key a ≤ key b)) l₂ :=
    ((stableSort_perm _ l₁).trans hp).trans (stableSort_perm _ l₂).symm
  exact eq_of_perm_of_sorted hp' (hstrict l₁ hnd)
    (hstrict l₂ (((hp.map key).nodup_iff).mp hnd))

/-- Claim C5: the claim asks that `unit_episodes` and `url_episodes` not fail
on an empty survey; the code instead raises
`RuntimeError("This should never happen.")` there, for every threshold. -/
theorem unit_url_episodes_empty_survey_raise (θ : Int) :
    unit_episodes ⟨[]⟩ θ = .error "This should never happen." ∧
      url_episodes ⟨[]⟩ θ = .error "This should never happen." :=
  ⟨rfl, rfl⟩

/-- Claim C7: survey equality is reflexive, and symmetric as an equivalence
of outcomes. -/
theorem surveyEq_refl_symm :
    (∀ s : RentSurvey, surveyEq s s = true) ∧
      ∀ s t : RentSurvey, (surveyEq s t = true ↔ surveyEq t s = true) := by
  constructor
  · intro s
    simp [surveyEq]
  · intro s t
    simp only [surveyEq, decide_eq_true_eq]
    exact eq_comm

/-- Claim C8: an empty survey has no episodes (for every threshold, without
raising), and `is_valid` of an empty survey is vacuously true. -/
theorem empty_survey_episodes_nil_is_valid :
    (∀ θ : Int, episodes ⟨[]⟩ θ = []) ∧ is_valid [] = true :=
  ⟨fun _ => rfl, rfl⟩

/-- Claim C3, counterexample: a correctly typed listing with price `-1` —
`is_valid` accepts the survey containing it although the spec's predicate
(price at least 0) rejects it, so the claimed equivalence fails. -/
theorem is_valid_not_spec_predicate :
    is_valid [c3L] = true ∧ specListingValid c3L = false := by
  constructor <;> rfl

/-- Claim C3, amended: `is_valid` of a survey containing exactly `L` is true
iff `L`'s five fields are correctly typed (price a float, scraper a str,
timestamp a datetime, unit a str, url a str); the price's sign, the strings'
emptiness and anything else about the values are not checked. -/
theorem is_valid_iff_type_check (L : DictListing) :
    is_valid [L] = true ↔
      (L.price.isFloat = true ∧ L.scraper.isStr = true ∧ L.timestamp.isDatetime = true ∧
        L.unit.isStr = true ∧ L.url.isStr = true) := by
  simp only [is_valid, List.all_cons, List.all_nil, Bool.and_true, listingTypeCheck,
    Bool.and_eq_true]
  tauto

/-- Claim C1, counterexample: at `t = 0` with a one-week threshold the three
listings at `t`, `t + 3` days and `t + 10` days form a single episode — the
seven-day gap between `t + 3d` and `t + 10d` equals the threshold and does
not split — so `episodes()` does not yield the claimed two episodes. -/
theorem episodes_three_listings_one_episode :
    episodes ⟨[c1A, c1B, c1C]⟩ week = [[c1A, c1B, c1C]] ∧
      (episodes ⟨[c1A, c1B, c1C]⟩ week).length ≠ 2 := by
  constructor <;> decide

theorem sortTs_three_sorted (a b c : RentListing) (h1 : tsLe a b = true)
    (h2 : tsLe b c = true) : sortTs [a, b, c] = [a, b, c] := by
  simp [sortTs, stableSort, insertSorted, h1, h2]

theorem splitEpisodes_three_no_split (θ : Int) (a b c : RentListing)
    (h1 : ¬b.timestamp - a.timestamp > θ) (h2 : ¬c.timestamp - b.timestamp > θ) :
    splitEpisodes θ [a, b, c] = [[a, b, c]] := by
  simp only [splitEpisodes, splitGo, if_neg h1, if_neg h2]
  simp

/-- Claim C1, amended: for every `t`, three listings of one (source, unit)
pair at `t`, `t + 3` days and `t + 10` days with a one-week threshold form
exactly ONE episode containing all three listings in timestamp order — the
second gap is exactly the threshold, and a gap must strictly exceed the
threshold to start a new episode. -/
theorem episodes_t_3d_10d_one_episode (t : Int) :
    episodes ⟨[⟨1500, "s", t, "n", "u"⟩, ⟨1510, "s", t + 3 * day, "n", "u"⟩,
        ⟨1520, "s", t + 10 * day, "n", "u"⟩]⟩ week =
      [[⟨1500, "s", t, "n", "u"⟩, ⟨1510, "s", t + 3 * day, "n", "u"⟩,
        ⟨1520, "s", t + 10 * day, "n", "u"⟩]] := by
  have hsort := sortTs_three_sorted ⟨1500, "s", t, "n", "u"⟩
    ⟨1510, "s", t + 3 * day, "n", "u"⟩ ⟨1520, "s", t + 10 * day, "n", "u"⟩
    (by simp only [tsLe, decide_eq_true_eq, day]; omega)
    (by simp only [tsLe, decide_eq_true_eq, day]; omega)
  have hsplit := splitEpisodes_three_no_split week ⟨1500, "s", t, "n", "u"⟩
    ⟨1510, "s", t + 3 * day, "n", "u"⟩ ⟨1520, "s", t + 10 * day, "n", "u"⟩
    (by simp only [day, week]; omega) (by simp only [day, week]; omega)
  calc episodes ⟨[⟨1500, "s", t, "n", "u"⟩, ⟨1510, "s", t + 3 * day, "n", "u"⟩,
        ⟨1520, "s", t + 10 * day, "n", "u"⟩]⟩ week
      = splitEpisodes week (sortTs [⟨1500, "s", t, "n", "u"⟩,
          ⟨1510, "s", t + 3 * day, "n", "u"⟩, ⟨1520, "s", t + 10 * day, "n", "u"⟩]) ++ [] ++ [] := by
        with_unfolding_all rfl
    _ = [[⟨1500, "s", t, "n", "u"⟩, ⟨1510, "s", t + 3 * day, "n", "u"⟩,
          ⟨1520, "s", t + 10 * day, "n", "u"⟩]] := by rw [hsort, hsplit]; simp

/-- Claim C4, counterexample: two surveys holding the same two listings in
the two orders — the listings share a timestamp but differ in unit — are
permutations of each other, yet `__eq__` returns False (the stable sort by
timestamp alone preserves the differing insertion orders). -/
theorem surveyEq_not_perm_invariant :
    [c4A, c4B] ~ [c4B, c4A] ∧ surveyEq ⟨[c4A, c4B]⟩ ⟨[c4B, c4A]⟩ = false := by
  constructor
  · decide
  · decide

/-- Claim C4, amended: survey equality is insensitive to insertion order for
surveys whose listings are permutations of each other, provided no two
listings share a timestamp; with duplicated timestamps (as in the
counterexample) the order can be observed. -/
theorem surveyEq_of_perm_of_nodup_ts (S T : RentSurvey)
    (hp : S.listings ~ T.listings)
    (hnd : (S.listings.map (·.timestamp)).Nodup) : surveyEq S T = true := by
  simp only [surveyEq, decide_eq_true_eq, sortTs]
  exact stableSort_eq_of_perm_of_nodup_key (fun l => l.timestamp) _ _ hp hnd

/-- Claim C4, witness for the amended theorem at a concrete input. -/
theorem surveyEq_of_perm_of_nodup_ts_witness :
    [c4C, c4D] ~ [c4D, c4C] ∧ ([c4C, c4D].map (·.timestamp)).Nodup ∧
      surveyEq ⟨[c4C, c4D]⟩ ⟨[c4D, c4C]⟩ = true :=
  ⟨by decide, by decide,
    surveyEq_of_perm_of_nodup_ts ⟨[c4C, c4D]⟩ ⟨[c4D, c4C]⟩ (by decide) (by decide)⟩

theorem cache_survey_listings_flatMap (extract : String → List ParsedUnit)
    (name url : String) :
    ∀ sc : List Scrape, (cache_survey extract name url sc).1.listings =
      sc.flatMap fun t => (scrapeSurvey extract name url t).listings := by
  intro sc
  induction sc with
  | nil => rfl
  | cons s sc' ih => simp only [cache_survey, flatMap_cons, ih]

theorem cache_survey_warns_of_mem (extract : String → List ParsedUnit)
    (name url : String) :
    ∀ (sc : List Scrape) (s : Scrape), s ∈ sc → extract s.text = [] →
      s.path ∈ (cache_survey extract name url sc).2 := by
  intro sc
  induction sc with
  | nil => intro s hs _; exact absurd hs (not_mem_nil s)
  | cons t sc' ih =>
    intro s hs hempty
    rcases mem_cons.mp hs with rfl | hs'
    · have hls : (scrapeSurvey extract name url s).listings = [] := by
        simp [scrapeSurvey, hempty]
      simp only [cache_survey, hls]
      simp
    · simp only [cache_survey]
      exact mem_append_right _ (ih s hs' hempty)

/-- Claim C9: a snapshot whose extraction yields zero listings is reported
(its path is among the warned paths) and is not fatal: the regenerated
survey is still the concatenation of every snapshot's listings, so all
other snapshots are processed. -/
theorem cache_survey_empty_snapshot_nonfatal (extract : String → List ParsedUnit)
    (name url : String) (scrapes : List Scrape) (s : Scrape)
    (hs : s ∈ scrapes) (hempty : extract s.text = []) :
    s.path ∈ (cache_survey extract name url scrapes).2 ∧
      (cache_survey extract name url scrapes).1.listings =
        scrapes.flatMap fun t => (scrapeSurvey extract name url t).listings :=
  ⟨cache_survey_warns_of_mem extract name url scrapes s hs hempty,
    cache_survey_listings_flatMap extract name url scrapes⟩

/-- Claim C9, witness at a concrete cache: the middle snapshot extracts to
nothing, is warned about, and the other two snapshots' listings survive. -/
theorem cache_survey_empty_snapshot_nonfatal_witness :
    c9S2 ∈ [c9S1, c9S2, c9S3] ∧ c9extract c9S2.text = [] ∧
      (c9S2.path ∈ (cache_survey c9extract "n" "u" [c9S1, c9S2, c9S3]).2 ∧
        (cache_survey c9extract "n" "u" [c9S1, c9S2, c9S3]).1.listings =
          [c9S1, c9S2, c9S3].flatMap fun t => (scrapeSurvey c9extract "n" "u" t).listings) :=
  ⟨by decide, by decide,
    cache_survey_empty_snapshot_nonfatal c9extract "n" "u" [c9S1, c9S2, c9S3] c9S2
      (by decide) (by decide)⟩

theorem splitGo_acc_mem (θ : Int) :
    ∀ (l : List RentListing) (lastL : RentListing) (ep : List RentListing),
      ∃ e ∈ splitGo θ lastL ep l, ∀ x ∈ ep, x ∈ e := by
  intro l
  induction l with
  | nil => exact fun lastL ep => ⟨ep, by simp [splitGo], fun x hx => hx⟩
  | cons r rest ih =>
    intro lastL ep
    by_cases h : r.timestamp - lastL.timestamp > θ
    · exact ⟨ep, by simp only [splitGo, if_pos h]; exact mem_cons_self ep _,
        fun x hx => hx⟩
    · obtain ⟨e, he, hsub⟩ := ih r (ep ++ [r])
      exact ⟨e, by simp only [splitGo, if_neg h]; exact he,
        fun x hx => hsub x (mem_append_left _ hx)⟩

theorem splitGo_adjacent (θ : Int) :
    ∀ (pre rest : List RentListing) (lastL : RentListing) (ep : List RentListing)
      (a b : RentListing) (suf : List RentListing),
      rest = pre ++ a :: b :: suf → b.timestamp - a.timestamp ≤ θ →
      ∃ e ∈ splitGo θ lastL ep rest, a ∈ e ∧ b ∈ e := by
  intro pre
  induction pre with
  | nil =>
    intro rest lastL ep a b suf hrest hgap
    subst hrest
    have hab : ¬b.timestamp - a.timestamp > θ := by omega
    by_cases h1 : a.timestamp - lastL.timestamp > θ
    · obtain ⟨e, he, hsub⟩ := splitGo_acc_mem θ suf b ([a] ++ [b])
      refine ⟨e, ?_, hsub a (by simp), hsub b (by simp)⟩
      simp only [nil_append, splitGo, if_pos h1, if_neg hab]
      exact mem_cons_of_mem _ he
    · obtain ⟨e, he, hsub⟩ := splitGo_acc_mem θ suf b (ep ++ [a] ++ [b])
      refine ⟨e, ?_, hsub a (by simp), hsub b (by simp)⟩
      simp only [nil_append, splitGo, if_neg h1, if_neg hab]
      exact he
  | cons p pre' ih =>
    intro rest lastL ep a b suf hrest hgap
    subst hrest
    by_cases h1 : p.timestamp - lastL.timestamp > θ
    · obtain ⟨e, he, h1e, h2e⟩ := ih (pre' ++ a :: b :: suf) p [p] a b suf rfl hgap
      refine ⟨e, ?_, h1e, h2e⟩
      simp only [cons_append, splitGo, if_pos h1]
      exact mem_cons_of_mem _ he
    · obtain ⟨e, he, h1e, h2e⟩ := ih (pre' ++ a :: b :: suf) p (ep ++ [p]) a b suf rfl hgap
      refine ⟨e, ?_, h1e, h2e⟩
      simp only [cons_append, splitGo, if_neg h1]
      exact he

theorem splitEpisodes_adjacent (θ : Int) (ul pre suf : List RentListing)
    (a b : RentListing) (hul : ul = pre ++ a :: b :: suf)
    (hgap : b.timestamp - a.timestamp ≤ θ) :
    ∃ e ∈ splitEpisodes θ ul, a ∈ e ∧ b ∈ e := by
  subst hul
  cases pre with
  | nil =>
    have hab : ¬b.timestamp - a.timestamp > θ := by omega
    obtain ⟨e, he, hsub⟩ := splitGo_acc_mem θ suf b ([a] ++ [b])
    refine ⟨e, ?_, hsub a (by simp), hsub b (by simp)⟩
    simp only [nil_append, splitEpisodes, splitGo, if_neg hab]
    exact he
  | cons p pre' =>
    obtain ⟨e, he, h1e, h2e⟩ :=
      splitGo_adjacent θ pre' (pre' ++ a :: b :: suf) p [p] a b suf rfl hgap
    refine ⟨e, ?_, h1e, h2e⟩
    simp only [cons_append, splitEpisodes]
    exact he

theorem mem_unitListings_fields (s : RentSurvey) (url unit : String)
    (x : RentListing) (hx : x ∈ unitListings (urlListings s url) unit) :
    x ∈ s.listings ∧ x.url = url ∧ x.unit = unit := by
  have hx' : x ∈ (urlListings s url).filter fun l => l.unit == unit :=
    ((stableSort_perm tsLe _).mem_iff).mp hx
  have h1 := mem_filter.mp hx'
  have h2 := mem_filter.mp h1.1
  exact ⟨h2.1, beq_iff_eq.mp h2.2, beq_iff_eq.mp h1.2⟩

theorem splitEpisodes_mem_episodes (s : RentSurvey) (θ : Int) (url unit : String)
    (e : List RentListing)
    (he : e ∈ splitEpisodes θ (unitListings (urlListings s url) unit))
    (hne : unitListings (urlListings s url) unit ≠ []) :
    e ∈ episodes s θ := by
  obtain ⟨x, hx⟩ := exists_mem_of_ne_nil _ hne
  obtain ⟨hxs, hxurl, hxunit⟩ := mem_unitListings_fields s url unit x hx
  have hxu : x ∈ urlListings s url := by
    rw [urlListings, mem_filter]
    exact ⟨hxs, beq_iff_eq.mpr hxurl⟩
  have hurl : url ∈ surveyUrls s :=
    mem_dedup.mpr (mem_map.mpr ⟨x, hxs, hxurl⟩)
  have hunit : unit ∈ unitsOf (urlListings s url) :=
    ((stableSort_perm strLe _).mem_iff).mpr (mem_dedup.mpr (mem_map.mpr ⟨x, hxu, hxunit⟩))
  exact mem_flatMap.mpr ⟨url, hurl, mem_flatMap.mpr ⟨unit, hunit, he⟩⟩

/-- Claim C2: two consecutive listings of one (source, unit) pair whose gap
equals the threshold land in the same episode, and more generally a new
episode is started only when the gap strictly exceeds the threshold (any
gap at most the threshold keeps the pair together). -/
theorem gap_at_most_threshold_same_episode (s : RentSurvey) (θ : Int)
    (url unit : String) (pre suf : List RentListing) (a b : RentListing)
    (hul : unitListings (urlListings s url) unit = pre ++ a :: b :: suf) :
    (b.timestamp - a.timestamp = θ → ∃ e ∈ episodes s θ, a ∈ e ∧ b ∈ e) ∧
      (b.timestamp - a.timestamp ≤ θ → ∃ e ∈ episodes s θ, a ∈ e ∧ b ∈ e) := by
  have main : b.timestamp - a.timestamp ≤ θ → ∃ e ∈ episodes s θ, a ∈ e ∧ b ∈ e := by
    intro hgap
    obtain ⟨e, he, h1, h2⟩ := splitEpisodes_adjacent θ _ pre suf a b hul hgap
    refine ⟨e, splitEpisodes_mem_episodes s θ url unit e he ?_, h1, h2⟩
    rw [hul]
    intro hcon
    have := congrArg List.length hcon
    simp at this
  exact ⟨fun h => main (le_of_eq h), main⟩

/-- Claim C2, witness: two listings exactly one week apart with a one-week
threshold share an episode. -/
theorem gap_at_most_threshold_same_episode_witness :
    unitListings (urlListings ⟨[c2A, c2B]⟩ "u") "n" = [] ++ c2A :: c2B :: [] ∧
      ((c2B.timestamp - c2A.timestamp = week →
          ∃ e ∈ episodes ⟨[c2A, c2B]⟩ week, c2A ∈ e ∧ c2B ∈ e) ∧
        (c2B.timestamp - c2A.timestamp ≤ week →
          ∃ e ∈ episodes ⟨[c2A, c2B]⟩ week, c2A ∈ e ∧ c2B ∈ e)) :=
  ⟨by decide, gap_at_most_threshold_same_episode ⟨[c2A, c2B]⟩ week "u" "n" [] [] c2A c2B
    (by decide)⟩

theorem splitGo_flatten (θ : Int) :
    ∀ (l : List RentListing) (lastL : RentListing) (ep : List RentListing),
      (splitGo θ lastL ep l).flatten = ep ++ l := by
  intro l
  induction l with
  | nil => intro lastL ep; simp [splitGo]
  | cons r rest ih =>
    intro lastL ep
    by_cases h : r.timestamp - lastL.timestamp > θ
    · simp only [splitGo, if_pos h, flatten_cons, ih]
      simp
    · simp only [splitGo, if_neg h, ih]
      simp

theorem splitEpisodes_flatten (θ : Int) (l : List RentListing) :
    (splitEpisodes θ l).flatten = l := by
  cases l with
  | nil => rfl
  | cons first rest => simp [splitEpisodes, splitGo_flatten]

theorem splitGo_ne_nil (θ : Int) :
    ∀ (l : List RentListing) (lastL : RentListing) (ep : List RentListing),
      ep ≠ [] → ∀ e ∈ splitGo θ lastL ep l, e ≠ [] := by
  intro l
  induction l with
  | nil =>
    intro lastL ep hep e he
    simp only [splitGo, mem_singleton] at he
    rw [he]
    exact hep
  | cons r rest ih =>
    intro lastL ep hep e he
    by_cases h : r.timestamp - lastL.timestamp > θ
    · simp only [splitGo, if_pos h, mem_cons] at he
      rcases he with rfl | he'
      · exact hep
      · exact ih r [r] (by simp) e he'
    · simp only [splitGo, if_neg h] at he
      exact ih r (ep ++ [r]) (by simp) e he

theorem splitEpisodes_ne_nil (θ : Int) (l : List RentListing) :
    ∀ e ∈ splitEpisodes θ l, e ≠ [] := by
  cases l with
  | nil => intro e he; exact absurd he (not_mem_nil e)
  | cons first rest =>
    intro e he
    exact splitGo_ne_nil θ rest first [first] (by simp) e he

theorem flatten_flatMap (l : List β) (f : β → List (List α)) :
    (l.flatMap f).flatten = l.flatMap fun a => (f a).flatten := by
  induction l with
  | nil => rfl
  | cons x xs ih => simp only [flatMap_cons, flatten_append, ih]

theorem flatMap_perm_congr (l : List β) (f g : β → List α)
    (h : ∀ a ∈ l, f a ~ g a) : l.flatMap f ~ l.flatMap g := by
  induction l with
  | nil => exact Perm.refl _
  | cons x xs ih =>
    simp only [flatMap_cons]
    exact (h x (mem_cons_self x xs)).append (ih fun a ha => h a (mem_cons_of_mem x ha))

/-- Partitioning a list into its fibers over a complete duplicate-free list
of key values is a permutation of the list. -/
theorem flatMap_filter_key_perm [DecidableEq β] (key : α → β) :
    ∀ (us : List β) (l : List α), us.Nodup → (∀ x ∈ l, key x ∈ us) →
      (us.flatMap fun u => l.filter fun x => key x == u) ~ l := by
  intro us
  induction us with
  | nil =>
    intro l _ hcomp
    have hl : l = [] := eq_nil_iff_forall_not_mem.mpr fun a ha =>
      absurd (hcomp a ha) (not_mem_nil _)
    simp [hl]
  | cons u us' ih =>
    intro l hnd hcomp
    have hnd' := nodup_cons.mp hnd
    rw [flatMap_cons]
    have hstep : (us'.flatMap fun v => l.filter fun x => key x == v) =
        us'.flatMap fun v => (l.filter fun x => !(key x == u)).filter fun x => key x == v := by
      refine flatMap_congr fun v hv => ?_
      rw [filter_filter]
      refine (filter_congr fun x _ => ?_).symm
      cases hxv : key x == v with
      | true =>
        have hxu : (key x == u) = false := by
          have : key x = v := beq_iff_eq.mp hxv
          have : key x ≠ u := by
            rw [this]
            intro hvu
            exact hnd'.1 (hvu ▸ hv)
          simpa using this
        simp [hxu]
      | false => simp
    rw [hstep]
    have hcomp' : ∀ x ∈ l.filter fun x => !(key x == u), key x ∈ us' := by
      intro x hx
      have hx' := mem_filter.mp hx
      have : key x ≠ u := by simpa using hx'.2
      rcases mem_cons.mp (hcomp x hx'.1) with h | h
      · exact absurd h this
      · exact h
    have hperm := ih (l.filter fun x => !(key x == u)) hnd'.2 hcomp'
    calc (l.filter fun x => key x == u) ++
          (us'.flatMap fun v => (l.filter fun x => !(key x == u)).filter fun x => key x == v)
        ~ (l.filter fun x => key x == u) ++ l.filter fun x => !(key x == u) :=
          Perm.append_left _ hperm
      _ ~ l := filter_append_perm _ l

theorem sortTs_pairwise (l : List RentListing) :
    (sortTs l).Pairwise fun a b => a.timestamp ≤ b.timestamp :=
  stableSort_pairwise_key (fun x => x.timestamp) l

/-- Claim C10: every episode yielded by `episodes()` is non-empty, all its
listings share one url and one unit, its timestamps are non-decreasing, and
the episodes partition the survey's listings (their concatenation is a
permutation of the listing list, so each listing occurs in exactly one
episode). -/
theorem episodes_invariants (s : RentSurvey) (θ : Int) :
    (∀ e ∈ episodes s θ, e ≠ [] ∧
      (∀ x ∈ e, ∀ y ∈ e, x.url = y.url ∧ x.unit = y.unit) ∧
      e.Pairwise fun a b => a.timestamp ≤ b.timestamp) ∧
    (episodes s θ).flatten ~ s.listings := by
  constructor
  · intro e he
    obtain ⟨url, _, hrest⟩ := mem_flatMap.mp he
    obtain ⟨unit, _, hsplit⟩ := mem_flatMap.mp hrest
    have hsub : e.Sublist (unitListings (urlListings s url) unit) := by
      have := sublist_flatten_of_mem (l := e) hsplit
      rwa [splitEpisodes_flatten] at this
    have hmem : ∀ x ∈ e, x ∈ s.listings ∧ x.url = url ∧ x.unit = unit := fun x hx =>
      mem_unitListings_fields s url unit x (hsub.mem hx)
    refine ⟨splitEpisodes_ne_nil θ _ e hsplit, fun x hx y hy => ?_, ?_⟩
    · obtain ⟨_, hxu, hxn⟩ := hmem x hx
      obtain ⟨_, hyu, hyn⟩ := hmem y hy
      rw [hxu, hxn, hyu, hyn]
      exact ⟨rfl, rfl⟩
    · exact (sortTs_pairwise _).sublist hsub
  · rw [episodes, flatten_flatMap]
    have hinner : ∀ url ∈ surveyUrls s,
        ((unitsOf (urlListings s url)).flatMap fun unit =>
          splitEpisodes θ (unitListings (urlListings s url) unit)).flatten ~
          urlListings s url := by
      intro url _
      rw [flatten_flatMap]
      have h1 : ((unitsOf (urlListings s url)).flatMap fun unit =>
          (splitEpisodes θ (unitListings (urlListings s url) unit)).flatten) =
          (unitsOf (urlListings s url)).flatMap fun unit =>
            unitListings (urlListings s url) unit :=
        flatMap_congr fun unit _ => splitEpisodes_flatten θ _
      rw [h1]
      have h2 : ((unitsOf (urlListings s url)).flatMap fun unit =>
          unitListings (urlListings s url) unit) ~
          (unitsOf (urlListings s url)).flatMap fun unit =>
            (urlListings s url).filter fun l => l.unit == unit :=
        flatMap_perm_congr _ _ _ fun unit _ => stableSort_perm tsLe _
      refine h2.trans ?_
      have hnodup : (unitsOf (urlListings s url)).Nodup :=
        ((stableSort_perm strLe _).nodup_iff).mpr (nodup_dedup _)
      have hcomp : ∀ x ∈ urlListings s url, x.unit ∈ unitsOf (urlListings s url) :=
        fun x hx => ((stableSort_perm strLe _).mem_iff).mpr
          (mem_dedup.mpr (mem_map.mpr ⟨x, hx, rfl⟩))
      exact flatMap_filter_key_perm (fun l : RentListing => l.unit) _ _ hnodup hcomp
    have houter : ((surveyUrls s).flatMap fun url =>
        ((unitsOf (urlListings s url)).flatMap fun unit =>
          splitEpisodes θ (unitListings (urlListings s url) unit)).flatten) ~
        (surveyUrls s).flatMap fun url => urlListings s url :=
      flatMap_perm_congr _ _ _ hinner
    refine houter.trans ?_
    have hnodup : (surveyUrls s).Nodup := nodup_dedup _
    have hcomp : ∀ x ∈ s.listings, x.url ∈ surveyUrls s :=
      fun x hx => mem_dedup.mpr (mem_map.mpr ⟨x, hx, rfl⟩)
    exact flatMap_filter_key_perm (fun l : RentListing => l.url) _ _ hnodup hcomp

theorem insertSorted_append_left (le : α → α → Bool) (x : α) (P Q : List α)
    (h : ∀ p ∈ P, le x p = false) :
    insertSorted le x (P ++ Q) = P ++ insertSorted le x Q := by
  induction P with
  | nil => rfl
  | cons p P' ih =>
    have hp := h p (mem_cons_self p P')
    simp only [cons_append, insertSorted, hp, Bool.false_eq_true, if_false]
    exact congrArg (List.cons p) (ih fun q hq => h q (mem_cons_of_mem p hq))

theorem insertSorted_eq_takeWhile_dropWhile (le : α → α → Bool) (x : α) (l : List α) :
    insertSorted le x l =
      l.takeWhile (fun y => !le x y) ++ x :: l.dropWhile fun y => !le x y := by
  induction l with
  | nil => rfl
  | cons y ys ih =>
    cases h : le x y with
    | true => simp [insertSorted, takeWhile_cons, dropWhile_cons, h]
    | false => simp [insertSorted, takeWhile_cons, dropWhile_cons, h, ih]

theorem dropWhile_head_false (p : α → Bool) :
    ∀ (l : List α) (d : α) (ds : List α), l.dropWhile p = d :: ds → p d = false := by
  intro l
  induction l with
  | nil => intro d ds h; simp [dropWhile] at h
  | cons y ys ih =>
    intro d ds h
    cases hy : p y with
    | true =>
      rw [dropWhile_cons, if_pos hy] at h
      exact ih d ds h
    | false =>
      rw [dropWhile_cons, if_neg (by simp [hy])] at h
      cases h
      exact hy

theorem takeWhile_append_all (p : α → Bool) (A R : List α) (h : ∀ a ∈ A, p a = true) :
    (A ++ R).takeWhile p = A ++ R.takeWhile p := by
  induction A with
  | nil => rfl
  | cons a A' ih =>
    simp only [cons_append, takeWhile_cons, h a (mem_cons_self a A'), if_true]
    rw [ih fun b hb => h b (mem_cons_of_mem a hb)]

theorem takeWhile_all_false (p : α → Bool) (M : List α) (h : ∀ a ∈ M, p a = false) :
    M.takeWhile p = [] := by
  cases M with
  | nil => rfl
  | cons a M' => simp [takeWhile_cons, h a (mem_cons_self a M')]

theorem dropWhile_append_all (p : α → Bool) (A R : List α) (h : ∀ a ∈ A, p a = true) :
    (A ++ R).dropWhile p = R.dropWhile p := by
  induction A with
  | nil => rfl
  | cons a A' ih =>
    simp only [cons_append, dropWhile_cons, h a (mem_cons_self a A'), if_true]
    exact ih fun b hb => h b (mem_cons_of_mem a hb)

theorem dropWhile_all_false (p : α → Bool) (M : List α) (h : ∀ a ∈ M, p a = false) :
    M.dropWhile p = M := by
  cases M with
  | nil => rfl
  | cons a M' => simp [dropWhile_cons, h a (mem_cons_self a M')]

/-- Inserting a block of listings that all carry timestamp `k` into any list
`M` (one by one, back to front, as the stable sort does) lands the whole
block, in order, between `M`'s elements below `k` and the rest. -/
theorem foldr_insert_block (k : Int) (B M : List RentListing)
    (hB : ∀ x ∈ B, x.timestamp = k) :
    B.foldr (insertSorted tsLe) M =
      (M.takeWhile fun y => decide (y.timestamp < k)) ++ B ++
        M.dropWhile fun y => decide (y.timestamp < k) := by
  induction B with
  | nil => simp [takeWhile_append_dropWhile]
  | cons x B' ih =>
    have hx : x.timestamp = k := hB x (mem_cons_self x B')
    have hB' : ∀ y ∈ B', y.timestamp = k := fun y hy => hB y (mem_cons_of_mem x hy)
    rw [foldr_cons, ih hB', append_assoc]
    have hP : ∀ p ∈ M.takeWhile fun y => decide (y.timestamp < k), tsLe x p = false := by
      intro p hp
      have hp2 : p.timestamp < k := by simpa using mem_takeWhile_imp hp
      simp only [tsLe, hx]
      exact decide_eq_false (by omega)
    rw [insertSorted_append_left tsLe x _ _ hP]
    have hmid : insertSorted tsLe x
        (B' ++ M.dropWhile fun y => decide (y.timestamp < k)) =
        x :: (B' ++ M.dropWhile fun y => decide (y.timestamp < k)) := by
      cases hB'' : B' with
      | cons b B'' =>
        have hb : b.timestamp = k := hB' b (by rw [hB'']; exact mem_cons_self b B'')
        simp only [cons_append, insertSorted, tsLe, hx, hb]
        simp
      | nil =>
        simp only [nil_append]
        cases hD : M.dropWhile fun y => decide (y.timestamp < k) with
        | nil => rfl
        | cons d ds =>
          have hd : (decide (d.timestamp < k)) = false := dropWhile_head_false _ M d ds hD
          have : k ≤ d.timestamp := by
            have := of_decide_eq_false hd
            omega
          simp only [insertSorted, tsLe, hx]
          simp [this]
    rw [hmid]
    simp

/-- `takeWhile` of a threshold predicate distributes over the flattened
blocks of a key-sorted list when each block's timestamps equal its key. -/
theorem flatMap_takeWhile_key {σ : Type} (key : σ → Int) (blk : σ → List RentListing)
    (hblk : ∀ t, ∀ x ∈ blk t, x.timestamp = key t) (k : Int) :
    ∀ L : List σ, L.Pairwise (fun a b => key a ≤ key b) →
      ((L.flatMap blk).takeWhile fun y => decide (y.timestamp < k)) =
        (L.takeWhile fun t => decide (key t < k)).flatMap blk := by
  intro L
  induction L with
  | nil => intro _; rfl
  | cons t L' ih =>
    intro hpair
    have hp := pairwise_cons.mp hpair
    rw [flatMap_cons, takeWhile_cons]
    by_cases hk : key t < k
    · rw [if_pos (by simpa using hk)]
      rw [flatMap_cons, takeWhile_append_all _ _ _ fun x hx => ?side]
      · rw [ih hp.2]
      case side =>
        have := hblk t x hx
        exact decide_eq_true (by omega)
    · rw [if_neg (by simpa using hk)]
      have hall : ∀ x ∈ blk t ++ L'.flatMap blk,
          (decide (x.timestamp < k)) = false := by
        intro x hx
        rcases mem_append.mp hx with hx' | hx'
        · have := hblk t x hx'
          exact decide_eq_false (by omega)
        · obtain ⟨u, hu, hxu⟩ := mem_flatMap.mp hx'
          have h1 := hblk u x hxu
          have h2 := hp.1 u hu
          exact decide_eq_false (by omega)
      rw [takeWhile_all_false _ _ hall]
      rfl

/-- `dropWhile` counterpart of `flatMap_takeWhile_key`. -/
theorem flatMap_dropWhile_key {σ : Type} (key : σ → Int) (blk : σ → List RentListing)
    (hblk : ∀ t, ∀ x ∈ blk t, x.timestamp = key t) (k : Int) :
    ∀ L : List σ, L.Pairwise (fun a b => key a ≤ key b) →
      ((L.flatMap blk).dropWhile fun y => decide (y.timestamp < k)) =
        (L.dropWhile fun t => decide (key t < k)).flatMap blk := by
  intro L
  induction L with
  | nil => intro _; rfl
  | cons t L' ih =>
    intro hpair
    have hp := pairwise_cons.mp hpair
    rw [flatMap_cons, dropWhile_cons]
    by_cases hk : key t < k
    · rw [if_pos (by simpa using hk)]
      rw [dropWhile_append_all _ _ _ fun x hx => ?side2]
      · rw [ih hp.2]
      case side2 =>
        have := hblk t x hx
        exact decide_eq_true (by omega)
    · rw [if_neg (by simpa using hk)]
      have hall : ∀ x ∈ blk t ++ L'.flatMap blk,
          (decide (x.timestamp < k)) = false := by
        intro x hx
        rcases mem_append.mp hx with hx' | hx'
        · have := hblk t x hx'
          exact decide_eq_false (by omega)
        · obtain ⟨u, hu, hxu⟩ := mem_flatMap.mp hx'
          have h1 := hblk u x hxu
          have h2 := hp.1 u hu
          exact decide_eq_false (by omega)
      rw [dropWhile_all_false _ _ hall]
      exact (flatMap_cons t L' blk).symm

theorem sortTs_append_foldr (A B : List RentListing) :
    sortTs (A ++ B) = A.foldr (insertSorted tsLe) (sortTs B) := by
  simp [sortTs, stableSort, foldr_append]

/-- Core step: stably inserting one block equals inserting its scrape into
the sorted scrape list and flattening. -/
theorem foldr_insert_flatMap {σ : Type} (key : σ → Int) (blk : σ → List RentListing)
    (hblk : ∀ t, ∀ x ∈ blk t, x.timestamp = key t) (s : σ) (L : List σ)
    (hL : L.Pairwise fun a b => key a ≤ key b) :
    (blk s).foldr (insertSorted tsLe) (L.flatMap blk) =
      (insertSorted (fun a b => decide (key a ≤ key b)) s L).flatMap blk := by
  rw [foldr_insert_block (key s) _ _ (hblk s)]
  rw [flatMap_takeWhile_key key blk hblk (key s) L hL]
  rw [flatMap_dropWhile_key key blk hblk (key s) L hL]
  rw [insertSorted_eq_takeWhile_dropWhile (fun a b => decide (key a ≤ key b)) s L]
  have hfun : (fun t : σ => !(decide (key s ≤ key t))) = fun t => decide (key t < key s) := by
    funext t
    by_cases h : key s ≤ key t
    · have h2 : ¬key t < key s := by omega
      simp [h, h2]
    · have h2 : key t < key s := by omega
      simp [h, h2]
  rw [hfun, flatMap_append, flatMap_cons, append_assoc]

/-- Stably sorting the concatenation of timestamp-constant blocks by
timestamp is flattening the blocks in their scrapes' stably-sorted order. -/
theorem sortTs_flatMap_blocks {σ : Type} (key : σ → Int) (blk : σ → List RentListing)
    (hblk : ∀ t, ∀ x ∈ blk t, x.timestamp = key t) :
    ∀ sc : List σ, sortTs (sc.flatMap blk) =
      (stableSort (fun a b => decide (key a ≤ key b)) sc).flatMap blk := by
  intro sc
  induction sc with
  | nil => rfl
  | cons s sc' ih =>
    rw [flatMap_cons, sortTs_append_foldr, ih]
    rw [foldr_insert_flatMap key blk hblk s _ (stableSort_pairwise_key key sc')]
    rfl

/-- Claim C6, counterexample: a cache of two snapshots carrying the same
parsed timestamp (possible, since the timestamp is parsed from the file
name and distinct file names can share one).  Listing the files in the two
orders regenerates two surveys that `__eq__` distinguishes, because the
stable sort by timestamp preserves each processing order. -/
theorem cache_survey_equal_ts_order_sensitive :
    [c6A, c6B] ~ [c6B, c6A] ∧
      surveyEq (cache_survey c6extract "n" "u" [c6A, c6B]).1
        (cache_survey c6extract "n" "u" [c6B, c6A]).1 = false := by
  constructor
  · decide
  · decide

/-- Claim C6, amended: regeneration is idempotent up to survey equality
regardless of cache listing order, provided the cached snapshots carry
pairwise-distinct timestamps: any two listing orders of one cache replayed
through one deterministic extractor regenerate equal surveys. -/
theorem cache_survey_order_insensitive (extract : String → List ParsedUnit)
    (name url : String) (sc1 sc2 : List Scrape) (hp : sc1 ~ sc2)
    (hnd : (sc1.map (·.timestamp)).Nodup) :
    surveyEq (cache_survey extract name url sc1).1
      (cache_survey extract name url sc2).1 = true := by
  simp only [surveyEq, decide_eq_true_eq]
  rw [cache_survey_listings_flatMap, cache_survey_listings_flatMap]
  have hblk : ∀ t : Scrape, ∀ x ∈ (scrapeSurvey extract name url t).listings,
      x.timestamp = t.timestamp := by
    intro t x hx
    obtain ⟨u, _, hux⟩ := mem_map.mp hx
    rw [← hux]
  rw [sortTs_flatMap_blocks (fun t : Scrape => t.timestamp) _ hblk sc1]
  rw [sortTs_flatMap_blocks (fun t : Scrape => t.timestamp) _ hblk sc2]
  rw [stableSort_eq_of_perm_of_nodup_key (fun t : Scrape => t.timestamp) sc1 sc2 hp hnd]

/-- Claim C6, witness for the amended theorem: the same two distinct-time
snapshots listed in both orders regenerate equal surveys. -/
theorem cache_survey_order_insensitive_witness :
    [c6C, c6D] ~ [c6D, c6C] ∧ ([c6C, c6D].map (·.timestamp)).Nodup ∧
      surveyEq (cache_survey c6extract "n" "u" [c6C, c6D]).1
        (cache_survey c6extract "n" "u" [c6D, c6C]).1 = true :=
  ⟨by decide, by decide,
    cache_survey_order_insensitive c6extract "n" "u" [c6C, c6D] [c6D, c6C]
      (by decide) (by decide)⟩

end Searents
